import Mathlib

/-!
Verification of the entrainment-adjustment pipeline of
`calc_entrain_adjust.ipynb` (responses-patterned-warming).

The numerical code is shallowly embedded over `ℚ`.  A floating-point NaN
("no data") is modelled as `none : Option ℚ`; all arithmetic on field
values propagates `none` the way IEEE arithmetic propagates NaN, and a
division whose divisor is zero yields `none` (the float code produces
NaN or ±inf there, i.e. never a usable finite value).

A 3-D gridded field over (month, lat, lon) is a function
`Fin M → Fin NL → Fin NLon → Option ℚ`; a column profile along the
pressure axis is a `List (Option ℚ)` aligned with the coordinate list
`plev : List ℚ`.  The notebook's xarray label slices
(`.sel(plev = slice(lo, hi))`) on a strictly increasing pressure axis
select exactly the entries whose coordinate lies in `[lo, hi]`, which is
the `List.filter` below; `.sum()` skips NaN (modelled by `Option.getD 0`);
`np.trapz(y, x)` is the trapezoidal sum `trapzPairs` (for fewer than two
sample points it returns `0.0`).
-/

/-! ### NaN-propagating arithmetic on `Option ℚ` -/

def oadd : Option ℚ → Option ℚ → Option ℚ
  | some a, some b => some (a + b)
  | _, _ => none

def osub : Option ℚ → Option ℚ → Option ℚ
  | some a, some b => some (a - b)
  | _, _ => none

def omul : Option ℚ → Option ℚ → Option ℚ
  | some a, some b => some (a * b)
  | _, _ => none

/-- Division of field values: undefined operand or zero divisor gives
"no data" (float NaN/inf). -/
def odiv : Option ℚ → Option ℚ → Option ℚ
  | some a, some b => if b = 0 then none else some (a / b)
  | _, _ => none

def oabs : Option ℚ → Option ℚ
  | some a => some |a|
  | none => none

/-- `x > 0` on a possibly-missing value: NaN compares `False` (numpy). -/
def ogt0 : Option ℚ → Bool
  | some a => decide (0 < a)
  | none => false

/-- `x < 0` on a possibly-missing value: NaN compares `False` (numpy). -/
def olt0 : Option ℚ → Bool
  | some a => decide (a < 0)
  | none => false

/-! ### `np.trapz` over an explicit coordinate -/

/-- Trapezoidal sum over a list of (coordinate, value) samples:
`np.trapz(y, x) = Σᵢ (x_{i+1} - xᵢ) · (yᵢ + y_{i+1}) / 2`.
Fewer than two samples give `0.0` (the empty sum); an undefined value at
any of at least two samples makes the whole sum undefined. -/
def trapzPairs : List (ℚ × Option ℚ) → Option ℚ
  | [] => some 0
  | [_] => some 0
  | (x1, y1) :: (x2, y2) :: rest =>
    oadd (odiv (omul (some (x2 - x1)) (oadd y1 y2)) (some 2))
      (trapzPairs ((x2, y2) :: rest))

/-- `np.trapz(y, x = x)`. -/
def trapz (y : List (Option ℚ)) (x : List ℚ) : Option ℚ :=
  trapzPairs (x.zip y)

/-! ### `np.argmin` -/

/-- `np.abs` on a rational, written with an explicit sign test so that it
evaluates by rewriting; equal to `|x|` (`qabs_eq_abs`). -/
def qabs (x : ℚ) : ℚ :=
  if x < 0 then -x else x

/-- Index of the first minimum of a list (`np.argmin`; 0 on `[]`). -/
def argminIdx : List ℚ → ℕ
  | [] => 0
  | [_] => 0
  | x :: y :: ys =>
    let r := argminIdx (y :: ys)
    if x ≤ (y :: ys).getD r 0 then 0 else r + 1

/-- `np.argmin(np.abs(plev_array - target))`: index of the pressure level
closest to `target`. -/
def argminAbs (l : List ℚ) (t : ℚ) : ℕ :=
  argminIdx (l.map (fun p => qabs (p - t)))

/-! ### The per-column integration of `calc_entrain_adjust.ipynb`

For one (month, lat, lon) column the notebook does
```
lcl_plev = np.argmin(np.abs(plev_array - lcli))
dhdp_500_to_lcl = dhdp.sel(... , plev = slice(plev_FT, plev_array[lcl_plev]))
plev_500_to_lcl = plev_array[plev_FT_index:lcl_plev+1]
adjustment[...] = np.trapz(dhdp_500_to_lcl, x = plev_500_to_lcl)
```
with `plev_FT = 50000.` and `plev_FT_index = np.argmin(np.abs(plev_array - plev_FT))`.
-/

/-- Python slice `l[a:b]`. -/
def pySlice (l : List α) (a b : ℕ) : List α :=
  (l.drop a).take (b - a)

/-- The integrand values selected by
`dhdp.sel(plev = slice(plev_FT, plev_array[lcl_plev]))`: on a (strictly
increasing) pressure axis the xarray label slice keeps exactly the levels
whose coordinate lies in `[plev_FT, plev_array[lcl_plev]]`. -/
def colSliceY (plev : List ℚ) (dhdp : List (Option ℚ)) (pFT lcl : ℚ) : List (Option ℚ) :=
  ((plev.zip dhdp).filter
    (fun pv => decide (pFT ≤ pv.1) && decide (pv.1 ≤ plev.getD (argminAbs plev lcl) 0))).map
    Prod.snd

/-- The coordinate values `plev_array[plev_FT_index:lcl_plev+1]`. -/
def colSliceX (plev : List ℚ) (pFT lcl : ℚ) : List ℚ :=
  pySlice plev (argminAbs plev pFT) (argminAbs plev lcl + 1)

/-- One column's entrainment adjustment:
`np.trapz(dhdp_500_to_lcl, x = plev_500_to_lcl)`. -/
def columnAdjustment (plev : List ℚ) (dhdp : List (Option ℚ)) (pFT lcl : ℚ) : Option ℚ :=
  trapz (colSliceY plev dhdp pFT lcl) (colSliceX plev pFT lcl)

/-- Spec-side reference formulation (from the spec's words, for the
refinement claim): restrict `dh*/dp` to the contiguous index slice
between the reference level and the nearest-LCL level inclusive, and
trapezoid-integrate it against the corresponding pressure values. -/
def specColumnAdjustment (plev : List ℚ) (dhdp : List (Option ℚ)) (refIdx lclIdx : ℕ) :
    Option ℚ :=
  trapz (pySlice dhdp refIdx (lclIdx + 1)) (pySlice plev refIdx (lclIdx + 1))

/-! ### The pressure-weighted virtual temperature `{Tv(p)}`

Per level `k` the notebook slices from `plev_array[k]` down to `100000.`,
and either takes the raw first value (degenerate branch, when
`plev_array[k] == plev_array[-1]`) or integrates (`.integrate(coord='plev')`,
trapezoidal over the `plev` coordinate):
```
part1i = virtual_temp_by_p.sel(plev = slice(pressure, 100000.))
if plev_array[plev_index] == plev_array[-1]:
    part1[:,plev_index,] = part1i[:,0,]
else:
    part1[:,plev_index,] = part1i.integrate(coord = 'plev')
```
-/

/-- One of the two definite integrals (`part1`/`part2`) at level `k`,
for a per-column profile `f` of the integrand. -/
def partIntegral (plev : List ℚ) (f : List (Option ℚ)) (k : ℕ) : Option ℚ :=
  let s := (plev.zip f).filter
    (fun pv => decide (plev.getD k 0 ≤ pv.1) && decide (pv.1 ≤ 100000))
  if plev.getD k 0 = plev.getLastD 0 then (s.map Prod.snd).headD none
  else trapzPairs s

/-- `virtual_temperature_pressure_weighted = part1 / part2` at level `k`,
with `part1` integrating `virtual_temp / pfull` and `part2` integrating
`1 / pfull`. -/
def virtualTempWeighted (plev : List ℚ) (tv pf : List (Option ℚ)) (k : ℕ) : Option ℚ :=
  odiv (partIntegral plev (List.zipWith odiv tv pf) k)
    (partIntegral plev (pf.map (fun x => odiv (some 1) x)) k)

/-! ### Area-weighted ascent fractions

A 3-D field over (month, lat, lon) is `F3 M NL NLon`.  `weights` is the
1-D by-latitude field `cos(lat)`; `weights.where(landmask.notnull()==False)`
keeps the weight exactly where the mask value is missing (ocean / usable
point) and sets it to NaN elsewhere; multiplying by all-ones month and
longitude arrays broadcasts it, which in the function model is the fact
that the masked weight at (m, i, j) only reads `w i`.  `.sum()` skips
NaN (`Option.getD 0`), and the final scalar quotient is a float division
(undefined when the denominator is zero). -/

abbrev F3 (M NL NLon : ℕ) := Fin M → Fin NL → Fin NLon → Option ℚ

/-- `weights.where(landmask.notnull() == False)` broadcast over
(month, lon). -/
def weightsWhere {M NL NLon : ℕ} (w : Fin NL → ℚ) (lm : F3 M NL NLon) : F3 M NL NLon :=
  fun m i j => if lm m i j = none then some (w i) else none

/-- `weights_3Darray.sum()` (NaN-skipping). -/
def wsum {M NL NLon : ℕ} (wm : F3 M NL NLon) : ℚ :=
  ∑ x : Fin M × Fin NL × Fin NLon, (wm x.1 x.2.1 x.2.2).getD 0

/-- `weights_3Darray.where(flag).sum()` (NaN-skipping). -/
def wsumWhere {M NL NLon : ℕ} (flag : Fin M → Fin NL → Fin NLon → Bool)
    (wm : F3 M NL NLon) : ℚ :=
  ∑ x : Fin M × Fin NL × Fin NLon,
    if flag x.1 x.2.1 x.2.2 then (wm x.1 x.2.1 x.2.2).getD 0 else 0

/-- `proportion_overcome_conv_threshold(hsfc, hsat500, weights, landmask)`:
area-weighted fraction of points with positive instability index
`hsfc - hsat500`. -/
def proportion_overcome_conv_threshold {M NL NLon : ℕ} (hsfc hsat500 : F3 M NL NLon)
    (w : Fin NL → ℚ) (lm : F3 M NL NLon) : Option ℚ :=
  odiv
    (some (wsumWhere (fun m i j => ogt0 (osub (hsfc m i j) (hsat500 m i j)))
      (weightsWhere w lm)))
    (some (wsum (weightsWhere w lm)))

/-- `calc_ascent_frac(wap500, weights, landmask)`: area-weighted fraction
of points with negative 500 hPa vertical velocity. -/
def calc_ascent_frac {M NL NLon : ℕ} (wap500 : F3 M NL NLon)
    (w : Fin NL → ℚ) (lm : F3 M NL NLon) : Option ℚ :=
  odiv (some (wsumWhere (fun m i j => olt0 (wap500 m i j)) (weightsWhere w lm)))
    (some (wsum (weightsWhere w lm)))

/-! ### The calibration objective and the adjusted landmask -/

/-- The first argument `hsfc - adjustment*ehat` that `func` passes to
`proportion_overcome_conv_threshold`. -/
def funcIndexArg {M NL NLon : ℕ} (ehat : ℚ) (hsfc adjustment : F3 M NL NLon) :
    F3 M NL NLon :=
  fun m i j => osub (hsfc m i j) (omul (adjustment m i j) (some ehat))

/-- `func(ehat, hsfc, adjustment, hsat500, wap500)
  = np.abs(alpha_up - index)`: the calibration objective. -/
def func {M NL NLon : ℕ} (ehat : ℚ) (hsfc adjustment hsat500 wap500 : F3 M NL NLon)
    (w : Fin NL → ℚ) (lm : F3 M NL NLon) : Option ℚ :=
  oabs (osub (calc_ascent_frac wap500 w lm)
    (proportion_overcome_conv_threshold (funcIndexArg ehat hsfc adjustment) hsat500 w lm))

/-- `xr.ones_like(wap500).where(landmask.notnull()==False).where(adjustment_ctrl.notnull()==True)`:
1 on ocean points with a defined control adjustment, NaN elsewhere. -/
def landmaskStep1 {M NL NLon : ℕ} (rm : Fin NL → Fin NLon → Option ℚ)
    (adj : F3 M NL NLon) : F3 M NL NLon :=
  fun m i j => if rm i j = none ∧ (adj m i j).isSome then some 1 else none

/-- `xr.zeros_like(landmask).where(landmask != 1)`: 0 on excluded points
(land or missing adjustment), NaN on usable points. -/
def landmaskFinal {M NL NLon : ℕ} (lm1 : F3 M NL NLon) : F3 M NL NLon :=
  fun m i j => if lm1 m i j ≠ some 1 then some 0 else none

/-! ## Helper lemmas -/

theorem qabs_eq_abs (x : ℚ) : qabs x = |x| := by
  unfold qabs
  rcases lt_or_le x 0 with h | h
  · rw [if_pos h, abs_of_neg h]
  · rw [if_neg (not_lt.mpr h), abs_of_nonneg h]

theorem argminIdx_lt : ∀ (l : List ℚ), l ≠ [] → argminIdx l < l.length := by
  intro l
  induction l with
  | nil => intro h; exact absurd rfl h
  | cons x xs ih =>
    intro _
    cases xs with
    | nil => simp [argminIdx]
    | cons y ys =>
      simp only [argminIdx]
      split
      · simp
      · have := ih (List.cons_ne_nil y ys)
        simpa using Nat.succ_lt_succ this

theorem argminIdx_le :
    ∀ (l : List ℚ) (j : ℕ), j < l.length → l.getD (argminIdx l) 0 ≤ l.getD j 0 := by
  intro l
  induction l with
  | nil => simp
  | cons x xs ih =>
    cases xs with
    | nil =>
      intro j hj
      have hj0 : j = 0 := by simpa using Nat.lt_one_iff.mp (by simpa using hj)
      subst hj0
      simp [argminIdx]
    | cons y ys =>
      intro j hj
      by_cases hx : x ≤ (y :: ys).getD (argminIdx (y :: ys)) 0
      · simp only [argminIdx, if_pos hx]
        cases j with
        | zero => simp
        | succ j =>
          have hj' : j < (y :: ys).length := by simpa using Nat.succ_lt_succ_iff.mp hj
          calc (x :: y :: ys).getD 0 0 = x := rfl
            _ ≤ (y :: ys).getD (argminIdx (y :: ys)) 0 := hx
            _ ≤ (y :: ys).getD j 0 := ih j hj'
            _ = (x :: y :: ys).getD (j + 1) 0 := rfl
      · simp only [argminIdx, if_neg hx]
        cases j with
        | zero =>
          have := le_of_lt (not_le.mp hx)
          simpa using this
        | succ j =>
          have hj' : j < (y :: ys).length := by simpa using Nat.succ_lt_succ_iff.mp hj
          simpa using ih j hj'

theorem argminAbs_lt (l : List ℚ) (t : ℚ) (h : l ≠ []) : argminAbs l t < l.length := by
  unfold argminAbs
  have hm : l.map (fun p => qabs (p - t)) ≠ [] := by simpa using h
  simpa using argminIdx_lt _ hm

theorem getD_map_qabs (l : List ℚ) (t : ℚ) (i : ℕ) (hi : i < l.length) :
    (l.map (fun p => qabs (p - t))).getD i 0 = |l.getD i 0 - t| := by
  rw [List.getD_eq_getElem _ _ (by simpa using hi), List.getElem_map,
    List.getD_eq_getElem _ _ hi, qabs_eq_abs]

theorem argminAbs_le (l : List ℚ) (t : ℚ) (j : ℕ) (hj : j < l.length) :
    |l.getD (argminAbs l t) 0 - t| ≤ |l.getD j 0 - t| := by
  have hne : l ≠ [] := by
    intro h
    subst h
    simp at hj
  have hlt : argminAbs l t < l.length := argminAbs_lt l t hne
  have h := argminIdx_le (l.map (fun p => qabs (p - t))) j (by simpa using hj)
  rw [getD_map_qabs l t j hj] at h
  have h2 : (l.map (fun p => qabs (p - t))).getD (argminIdx (l.map (fun p => qabs (p - t)))) 0
      = |l.getD (argminAbs l t) 0 - t| := by
    rw [show argminIdx (l.map (fun p => qabs (p - t))) = argminAbs l t from rfl]
    exact getD_map_qabs l t _ hlt
  rwa [h2] at h

theorem pairwise_getElem_le_iff {l : List ℚ} (hm : l.Pairwise (· < ·)) {i j : ℕ}
    (hi : i < l.length) (hj : j < l.length) : l[i] ≤ l[j] ↔ i ≤ j := by
  have hlt := List.pairwise_iff_getElem.mp hm
  constructor
  · intro hle
    by_contra hij
    push_neg at hij
    exact absurd hle (not_le.mpr (hlt j i hj hi hij))
  · intro hij
    rcases Nat.eq_or_lt_of_le hij with h | h
    · subst h
      exact le_refl _
    · exact (hlt i j hi hj h).le

theorem filter_interval {α : Type} (P : α → Bool) (l : List α) (a b : ℕ) (hab : a ≤ b)
    (hb : b < l.length)
    (h : ∀ (i : ℕ) (hi : i < l.length), P (l.get ⟨i, hi⟩) = true ↔ (a ≤ i ∧ i ≤ b)) :
    l.filter P = (l.drop a).take (b + 1 - a) := by
  have hsplit : (l.drop a).take (b + 1 - a) ++ (l.drop a).drop (b + 1 - a) = l.drop a :=
    List.take_append_drop _ _
  have hdecomp : l = l.take a ++ ((l.drop a).take (b + 1 - a) ++ (l.drop a).drop (b + 1 - a)) := by
    rw [hsplit, List.take_append_drop]
  have hdd : (l.drop a).drop (b + 1 - a) = l.drop (b + 1) := by
    rw [List.drop_drop]
    congr 1
    omega
  have h1 : (l.take a).filter P = [] := by
    refine List.filter_eq_nil_iff.mpr ?_
    intro x hx
    obtain ⟨i, hi, hix⟩ := List.mem_iff_getElem.mp hx
    have hia : i < a := by
      have := hi
      simp [List.length_take] at this
      omega
    have hil : i < l.length := by
      have := hi
      simp [List.length_take] at this
      omega
    have hval : l.get ⟨i, hil⟩ = x := by
      rw [← hix]
      simp [List.getElem_take]
    intro hP
    have := (h i hil).mp (by rw [hval]; exact hP)
    omega
  have h3 : (l.drop (b + 1)).filter P = [] := by
    refine List.filter_eq_nil_iff.mpr ?_
    intro x hx
    obtain ⟨i, hi, hix⟩ := List.mem_iff_getElem.mp hx
    have hil : b + 1 + i < l.length := by
      have := hi
      simp [List.length_drop] at this
      omega
    have hval : l.get ⟨b + 1 + i, hil⟩ = x := by
      rw [← hix]
      simp [List.getElem_drop]
    intro hP
    have := (h (b + 1 + i) hil).mp (by rw [hval]; exact hP)
    omega
  have h2 : ((l.drop a).take (b + 1 - a)).filter P = (l.drop a).take (b + 1 - a) := by
    refine List.filter_eq_self.mpr ?_
    intro x hx
    obtain ⟨i, hi, hix⟩ := List.mem_iff_getElem.mp hx
    have hi' : i < b + 1 - a := by
      have := hi
      simp [List.length_take] at this
      omega
    have hil : a + i < l.length := by
      have := hi
      simp [List.length_take, List.length_drop] at this
      omega
    have hval : l.get ⟨a + i, hil⟩ = x := by
      rw [← hix]
      simp [List.getElem_take, List.getElem_drop]
    have : a ≤ a + i ∧ a + i ≤ b := ⟨Nat.le_add_right _ _, by omega⟩
    rw [← hval]
    exact (h (a + i) hil).mpr this
  conv_lhs => rw [hdecomp]
  rw [List.filter_append, List.filter_append, h1, h2, hdd, h3, List.nil_append,
    List.append_nil]

theorem trapzPairs_of_mem_none :
    ∀ (l : List (ℚ × Option ℚ)), 2 ≤ l.length → (∃ p ∈ l, p.2 = none) →
      trapzPairs l = none := by
  intro l
  induction l with
  | nil => simp
  | cons p rest ih =>
    obtain ⟨x1, y1⟩ := p
    cases rest with
    | nil => simp
    | cons q rest2 =>
      obtain ⟨x2, y2⟩ := q
      intro _ hex
      obtain ⟨pr, hmem, hnone⟩ := hex
      simp only [List.mem_cons] at hmem
      rcases hmem with h1 | h2 | h3
      · subst h1
        simp only at hnone
        subst hnone
        simp [trapzPairs, oadd, omul, odiv]
      · subst h2
        simp only at hnone
        subst hnone
        rcases y1 with _ | a <;> simp [trapzPairs, oadd, omul, odiv]
      · have hlen2 : 2 ≤ ((x2, y2) :: rest2).length := by
          have : rest2 ≠ [] := List.ne_nil_of_mem h3
          have : 1 ≤ rest2.length := List.length_pos.mpr this
          simpa using Nat.succ_le_succ this
        have := ih hlen2 ⟨pr, List.mem_cons_of_mem _ h3, hnone⟩
        rw [trapzPairs, this]
        rcases oadd y1 y2 with _ | a <;> simp [oadd, omul, odiv]

theorem pySlice_singleton {α : Type} (l : List α) (a : ℕ) (ha : a < l.length) :
    pySlice l a (a + 1) = [l.get ⟨a, ha⟩] := by
  unfold pySlice
  have h1 : a + 1 - a = 1 := by omega
  rw [h1, List.drop_eq_getElem_cons ha]
  rfl

theorem pySlice_empty_of_le {α : Type} (l : List α) (a b : ℕ) (h : b ≤ a) :
    pySlice l a b = [] := by
  unfold pySlice
  rw [Nat.sub_eq_zero_of_le h, List.take_zero]

/-- The xarray label slice of `dhdp` equals the positional slice
`dhdp[plev_FT_index : lcl_plev + 1]` whenever the pressure axis is
strictly increasing and the reference pressure is exactly on the axis
(both hold for the notebook's data, which carries an exact 50000 Pa
level). -/
theorem colSliceY_eq (plev : List ℚ) (dhdp : List (Option ℚ)) (pFT lcl : ℚ)
    (hmono : plev.Pairwise (· < ·)) (hlen : dhdp.length = plev.length)
    (hFT : plev[argminAbs plev pFT]? = some pFT) :
    colSliceY plev dhdp pFT lcl
      = pySlice dhdp (argminAbs plev pFT) (argminAbs plev lcl + 1) := by
  obtain ⟨ha, haval⟩ := List.getElem?_eq_some_iff.mp hFT
  have hne : plev ≠ [] := by
    intro h
    rw [h] at ha
    simp at ha
  have hb : argminAbs plev lcl < plev.length := argminAbs_lt plev lcl hne
  have hzl : (plev.zip dhdp).length = plev.length := by
    rw [List.length_zip, hlen, min_self]
  have hgetb : plev.getD (argminAbs plev lcl) 0 = plev[argminAbs plev lcl] :=
    List.getD_eq_getElem _ _ hb
  unfold colSliceY
  rcases le_or_lt (argminAbs plev pFT) (argminAbs plev lcl) with hab | hba
  · have hchar : ∀ (i : ℕ) (hi : i < (plev.zip dhdp).length),
        ((fun pv => decide (pFT ≤ pv.1) &&
          decide (pv.1 ≤ plev.getD (argminAbs plev lcl) 0)) ((plev.zip dhdp).get ⟨i, hi⟩)) = true
        ↔ (argminAbs plev pFT ≤ i ∧ i ≤ argminAbs plev lcl) := by
      intro i hi
      have hil : i < plev.length := by rwa [hzl] at hi
      have hid : i < dhdp.length := by omega
      simp only [List.get_eq_getElem, List.getElem_zip, Bool.and_eq_true, decide_eq_true_eq,
        hgetb]
      constructor
      · rintro ⟨h1, h2⟩
        rw [← haval] at h1
        exact ⟨(pairwise_getElem_le_iff hmono ha hil).mp h1,
          (pairwise_getElem_le_iff hmono hil hb).mp h2⟩
      · rintro ⟨h1, h2⟩
        rw [← haval]
        exact ⟨(pairwise_getElem_le_iff hmono ha hil).mpr h1,
          (pairwise_getElem_le_iff hmono hil hb).mpr h2⟩
    rw [filter_interval _ (plev.zip dhdp) (argminAbs plev pFT) (argminAbs plev lcl) hab
      (by rwa [hzl]) hchar]
    rw [List.map_take, List.map_drop, List.map_snd_zip plev dhdp (le_of_eq hlen)]
    rfl
  · have hfilter : (plev.zip dhdp).filter
        (fun pv => decide (pFT ≤ pv.1) && decide (pv.1 ≤ plev.getD (argminAbs plev lcl) 0))
        = [] := by
      refine List.filter_eq_nil_iff.mpr ?_
      intro pv hpv
      obtain ⟨i, hi, hval⟩ := List.mem_iff_getElem.mp hpv
      have hil : i < plev.length := by rwa [hzl] at hi
      intro hP
      rw [← hval] at hP
      simp only [List.getElem_zip, Bool.and_eq_true, decide_eq_true_eq, hgetb] at hP
      obtain ⟨h1, h2⟩ := hP
      rw [← haval] at h1
      have hai : argminAbs plev pFT ≤ i := (pairwise_getElem_le_iff hmono ha hil).mp h1
      have hib : i ≤ argminAbs plev lcl := (pairwise_getElem_le_iff hmono hil hb).mp h2
      omega
    rw [hfilter, pySlice_empty_of_le dhdp _ _ (by omega)]
    rfl

/-- The notebook's per-column computation equals the spec-side
positional-slice formulation. -/
theorem columnAdjustment_eq_spec (plev : List ℚ) (dhdp : List (Option ℚ)) (pFT lcl : ℚ)
    (hmono : plev.Pairwise (· < ·)) (hlen : dhdp.length = plev.length)
    (hFT : plev[argminAbs plev pFT]? = some pFT) :
    columnAdjustment plev dhdp pFT lcl
      = specColumnAdjustment plev dhdp (argminAbs plev pFT) (argminAbs plev lcl) := by
  unfold columnAdjustment specColumnAdjustment trapz colSliceX
  rw [colSliceY_eq plev dhdp pFT lcl hmono hlen hFT]

/-- C1: per (month, lat, lon) column, the code selects the LCL level as
the absolute-difference argmin over the available pressure levels (not a
boundary clamp), restricts dh*/dp to the contiguous slice of levels
between the 500 hPa reference index and that nearest-LCL index
inclusive, and integrates that slice by the trapezoidal rule using the
actual pressure values as integration variable, yielding one scalar per
column.  Hypotheses: strictly increasing pressure axis, matching profile
length, and the reference pressure lying exactly on the axis (all true
of the notebook's data). -/
theorem C1_column_trapezoid (plev : List ℚ) (dhdp : List (Option ℚ)) (pFT lcl : ℚ)
    (hmono : plev.Pairwise (· < ·)) (hlen : dhdp.length = plev.length)
    (hFT : plev[argminAbs plev pFT]? = some pFT) :
    columnAdjustment plev dhdp pFT lcl
      = specColumnAdjustment plev dhdp (argminAbs plev pFT) (argminAbs plev lcl)
    ∧ argminAbs plev lcl < plev.length
    ∧ ∀ j, j < plev.length →
        |plev.getD (argminAbs plev lcl) 0 - lcl| ≤ |plev.getD j 0 - lcl| := by
  obtain ⟨ha, _⟩ := List.getElem?_eq_some_iff.mp hFT
  have hne : plev ≠ [] := by
    intro h
    rw [h] at ha
    simp at ha
  exact ⟨columnAdjustment_eq_spec plev dhdp pFT lcl hmono hlen hFT,
    argminAbs_lt plev lcl hne, fun j hj => argminAbs_le plev lcl j hj⟩

theorem C1_column_trapezoid_witness :
    columnAdjustment [(1:ℚ), 2, 3, 4] [some 2, some 4, some 1, some 0] 2 3
      = specColumnAdjustment [(1:ℚ), 2, 3, 4] [some 2, some 4, some 1, some 0]
          (argminAbs [(1:ℚ), 2, 3, 4] 2) (argminAbs [(1:ℚ), 2, 3, 4] 3)
    ∧ argminAbs [(1:ℚ), 2, 3, 4] 3 < ([(1:ℚ), 2, 3, 4] : List ℚ).length
    ∧ ∀ j, j < ([(1:ℚ), 2, 3, 4] : List ℚ).length →
        |([(1:ℚ), 2, 3, 4] : List ℚ).getD (argminAbs [(1:ℚ), 2, 3, 4] 3) 0 - 3|
          ≤ |([(1:ℚ), 2, 3, 4] : List ℚ).getD j 0 - 3| :=
  C1_column_trapezoid [(1:ℚ), 2, 3, 4] [some 2, some 4, some 1, some 0] 2 3
    (by norm_num [List.pairwise_cons])
    (by norm_num)
    (by norm_num [argminAbs, argminIdx, qabs, List.getD])

/-- C9: when the pressure level nearest to the column's LCL is exactly
the 500 hPa reference level, the integration interval has zero width and
the column adjustment is exactly zero. -/
theorem C9_zero_width_interval (plev : List ℚ) (dhdp : List (Option ℚ)) (pFT lcl : ℚ)
    (hmono : plev.Pairwise (· < ·)) (hlen : dhdp.length = plev.length)
    (hFT : plev[argminAbs plev pFT]? = some pFT)
    (hcoin : plev.getD (argminAbs plev lcl) 0 = pFT) :
    columnAdjustment plev dhdp pFT lcl = some 0 := by
  obtain ⟨ha, haval⟩ := List.getElem?_eq_some_iff.mp hFT
  have hne : plev ≠ [] := by
    intro h
    rw [h] at ha
    simp at ha
  have hb : argminAbs plev lcl < plev.length := argminAbs_lt plev lcl hne
  have hgetb : plev.getD (argminAbs plev lcl) 0 = plev[argminAbs plev lcl] :=
    List.getD_eq_getElem _ _ hb
  have h1 : plev[argminAbs plev lcl] = plev[argminAbs plev pFT] := by
    rw [← hgetb, hcoin, haval]
  have hba : argminAbs plev lcl = argminAbs plev pFT := by
    have hle1 := (pairwise_getElem_le_iff hmono hb ha).mp (le_of_eq h1)
    have hle2 := (pairwise_getElem_le_iff hmono ha hb).mp (le_of_eq h1.symm)
    omega
  have had : argminAbs plev pFT < dhdp.length := by omega
  unfold columnAdjustment trapz colSliceX
  rw [colSliceY_eq plev dhdp pFT lcl hmono hlen hFT, hba,
    pySlice_singleton plev _ ha, pySlice_singleton dhdp _ had]
  rfl

theorem C9_zero_width_interval_witness :
    columnAdjustment [(1:ℚ), 2, 3, 4] [none, some 4, some 1, some 0] 2 (9/4) = some 0 :=
  C9_zero_width_interval [(1:ℚ), 2, 3, 4] [none, some 4, some 1, some 0] 2 (9/4)
    (by norm_num [List.pairwise_cons])
    (by norm_num)
    (by norm_num [argminAbs, argminIdx, qabs, List.getD])
    (by norm_num [argminAbs, argminIdx, qabs, List.getD])

/-- C10: when the level nearest to the LCL lies at strictly lower
pressure than the reference level, the restricted slice and its pressure
axis are both empty and the column adjustment is the defined value 0.0
(not a missing value). -/
theorem C10_empty_slice_zero (plev : List ℚ) (dhdp : List (Option ℚ)) (pFT lcl : ℚ)
    (hmono : plev.Pairwise (· < ·)) (hlen : dhdp.length = plev.length)
    (hFT : plev[argminAbs plev pFT]? = some pFT)
    (hlt : plev.getD (argminAbs plev lcl) 0 < pFT) :
    colSliceY plev dhdp pFT lcl = [] ∧ colSliceX plev pFT lcl = []
    ∧ columnAdjustment plev dhdp pFT lcl = some 0 := by
  obtain ⟨ha, haval⟩ := List.getElem?_eq_some_iff.mp hFT
  have hne : plev ≠ [] := by
    intro h
    rw [h] at ha
    simp at ha
  have hb : argminAbs plev lcl < plev.length := argminAbs_lt plev lcl hne
  have hgetb : plev.getD (argminAbs plev lcl) 0 = plev[argminAbs plev lcl] :=
    List.getD_eq_getElem _ _ hb
  have hba : argminAbs plev lcl < argminAbs plev pFT := by
    by_contra hcon
    push_neg at hcon
    have := (pairwise_getElem_le_iff hmono ha hb).mpr hcon
    rw [haval] at this
    rw [hgetb] at hlt
    exact absurd this (not_le.mpr hlt)
  have hy : colSliceY plev dhdp pFT lcl = [] := by
    rw [colSliceY_eq plev dhdp pFT lcl hmono hlen hFT]
    exact pySlice_empty_of_le dhdp _ _ (by omega)
  have hx : colSliceX plev pFT lcl = [] := by
    unfold colSliceX
    exact pySlice_empty_of_le plev _ _ (by omega)
  refine ⟨hy, hx, ?_⟩
  unfold columnAdjustment trapz
  rw [hy, hx]
  rfl

theorem C10_empty_slice_zero_witness :
    colSliceY [(1:ℚ), 2, 3, 4] [some 5, none, some 1, some 0] 3 1 = []
    ∧ colSliceX [(1:ℚ), 2, 3, 4] 3 1 = []
    ∧ columnAdjustment [(1:ℚ), 2, 3, 4] [some 5, none, some 1, some 0] 3 1 = some 0 :=
  C10_empty_slice_zero [(1:ℚ), 2, 3, 4] [some 5, none, some 1, some 0] 3 1
    (by norm_num [List.pairwise_cons])
    (by norm_num)
    (by norm_num [argminAbs, argminIdx, qabs, List.getD])
    (by norm_num [argminAbs, argminIdx, qabs, List.getD])

/-- C3 is refuted at a concrete column: the level nearest the LCL is the
reference level itself, so the restricted slice is the single reference
level, whose integrand value is undefined — yet `np.trapz` over one
sample returns the defined value 0.0, coercing the undefined integrand
to zero. -/
theorem C3_single_level_nan_coerced :
    none ∈ colSliceY [(1:ℚ), 2, 3, 4] [none, some 1, some 1, some 1] 1 1
    ∧ columnAdjustment [(1:ℚ), 2, 3, 4] [none, some 1, some 1, some 1] 1 1 = some 0 := by
  constructor
  · norm_num [colSliceY, argminAbs, argminIdx, qabs, List.getD]
  · norm_num [columnAdjustment, colSliceY, colSliceX, pySlice, argminAbs, argminIdx, qabs,
      trapz, trapzPairs, List.getD]

/-- C3 (amended): if any value of the integrand is undefined in the
restricted slice between the reference level and the nearest-LCL level,
and that slice contains at least two levels, the column adjustment is
undefined; a slice of fewer than two levels yields the defined value 0.0
regardless of the integrand. -/
theorem C3_nan_propagation_amended (plev : List ℚ) (dhdp : List (Option ℚ)) (pFT lcl : ℚ)
    (hmono : plev.Pairwise (· < ·)) (hlen : dhdp.length = plev.length)
    (hFT : plev[argminAbs plev pFT]? = some pFT)
    (hnan : none ∈ colSliceY plev dhdp pFT lcl)
    (h2 : 2 ≤ (colSliceY plev dhdp pFT lcl).length) :
    columnAdjustment plev dhdp pFT lcl = none := by
  have hyeq := colSliceY_eq plev dhdp pFT lcl hmono hlen hFT
  have hlx : (colSliceX plev pFT lcl).length = (colSliceY plev dhdp pFT lcl).length := by
    rw [hyeq]
    unfold colSliceX pySlice
    simp [List.length_take, List.length_drop, hlen]
  unfold columnAdjustment trapz
  apply trapzPairs_of_mem_none
  · rw [List.length_zip, hlx, min_self]
    exact h2
  · obtain ⟨i, hi, hival⟩ := List.mem_iff_getElem.mp hnan
    have hiz : i < ((colSliceX plev pFT lcl).zip (colSliceY plev dhdp pFT lcl)).length := by
      rw [List.length_zip, hlx, min_self]
      exact hi
    refine ⟨((colSliceX plev pFT lcl).zip (colSliceY plev dhdp pFT lcl)).get ⟨i, hiz⟩,
      List.get_mem _ i hiz, ?_⟩
    simp [List.get_eq_getElem, List.getElem_zip, hival]

theorem C3_nan_propagation_amended_witness :
    columnAdjustment [(1:ℚ), 2, 3, 4] [some 1, none, some 1, some 1] 1 2 = none :=
  C3_nan_propagation_amended [(1:ℚ), 2, 3, 4] [some 1, none, some 1, some 1] 1 2
    (by norm_num [List.pairwise_cons])
    (by norm_num)
    (by norm_num [argminAbs, argminIdx, qabs, List.getD])
    (by norm_num [colSliceY, argminAbs, argminIdx, qabs, List.getD])
    (by norm_num [colSliceY, argminAbs, argminIdx, qabs, List.getD])

/-- At the bottom level (`plev_array[k] == plev_array[-1]`, with the axis
strictly increasing and bounded by the 1000 hPa reference) the slice from
`plev_array[k]` to `100000.` is the single bottom level, so `partIntegral`
returns the raw pointwise value there. -/
theorem partIntegral_last (plev : List ℚ) (f : List (Option ℚ)) (k : ℕ)
    (hmono : plev.Pairwise (· < ·)) (hk : k + 1 = plev.length)
    (hub : plev.getD k 0 ≤ 100000) (hf : f.length = plev.length) :
    partIntegral plev f k = f.getD k none := by
  have hkl : k < plev.length := by omega
  have hkf : k < f.length := by omega
  have hgl : plev.getLastD 0 = plev.getD k 0 := by
    rw [List.getLastD_eq_getLast?, List.getLast?_eq_getElem?]
    have h1 : plev.length - 1 = k := by omega
    rw [h1, List.getD_eq_getElem _ _ hkl, List.getElem?_eq_getElem hkl]
    rfl
  have hzl : (plev.zip f).length = plev.length := by
    rw [List.length_zip, hf, min_self]
  have hgetk : plev.getD k 0 = plev[k] := List.getD_eq_getElem _ _ hkl
  have hchar : ∀ (i : ℕ) (hi : i < (plev.zip f).length),
      ((fun pv => decide (plev.getD k 0 ≤ pv.1) && decide (pv.1 ≤ 100000))
        ((plev.zip f).get ⟨i, hi⟩)) = true ↔ (k ≤ i ∧ i ≤ k) := by
    intro i hi
    have hil : i < plev.length := by rwa [hzl] at hi
    simp only [List.get_eq_getElem, List.getElem_zip, Bool.and_eq_true, decide_eq_true_eq,
      hgetk]
    constructor
    · rintro ⟨h1, _⟩
      refine ⟨(pairwise_getElem_le_iff hmono hkl hil).mp h1, by omega⟩
    · rintro ⟨h1, h2⟩
      have hik : i = k := by omega
      subst hik
      rw [hgetk] at hub
      exact ⟨le_refl _, hub⟩
  unfold partIntegral
  rw [if_pos hgl.symm,
    filter_interval _ (plev.zip f) k k (le_refl k) (by rwa [hzl]) hchar]
  have hsingle := pySlice_singleton (plev.zip f) k (by rwa [hzl])
  unfold pySlice at hsingle
  rw [hsingle]
  simp only [List.get_eq_getElem, List.getElem_zip, List.map_cons, List.map_nil,
    List.headD_cons]
  rw [List.getD_eq_getElem _ _ hkf]

/-- C4: at the innermost (bottom) pressure level, where only one level
lies between the level being processed and the 1000 hPa surface
reference, the two definite integrals degenerate to the raw pointwise
values of T_v/p and 1/p at that level, so the ratio there is defined and
equals T_v — no not-a-number is produced at the bottom level. -/
theorem C4_bottom_level_degenerate (plev : List ℚ) (tv pf : List (Option ℚ)) (k : ℕ)
    (t p : ℚ)
    (hmono : plev.Pairwise (· < ·)) (hk : k + 1 = plev.length)
    (hub : plev.getD k 0 ≤ 100000)
    (htv : tv.length = plev.length) (hpf : pf.length = plev.length)
    (ht : tv.getD k none = some t) (hp : pf.getD k none = some p) (hp0 : p ≠ 0) :
    partIntegral plev (List.zipWith odiv tv pf) k = some (t / p)
    ∧ partIntegral plev (pf.map (fun x => odiv (some 1) x)) k = some (1 / p)
    ∧ virtualTempWeighted plev tv pf k = some t := by
  have hkl : k < plev.length := by omega
  have hktv : k < tv.length := by omega
  have hkpf : k < pf.length := by omega
  have htk : tv[k] = some t := by rwa [List.getD_eq_getElem _ _ hktv] at ht
  have hpk : pf[k] = some p := by rwa [List.getD_eq_getElem _ _ hkpf] at hp
  have hlen1 : (List.zipWith odiv tv pf).length = plev.length := by
    rw [List.length_zipWith, htv, hpf, min_self]
  have hlen2 : (pf.map (fun x => odiv (some 1) x)).length = plev.length := by
    rw [List.length_map, hpf]
  have hk1 : k < (List.zipWith odiv tv pf).length := by omega
  have hk2 : k < (pf.map (fun x => odiv (some 1) x)).length := by omega
  have h1 : partIntegral plev (List.zipWith odiv tv pf) k = some (t / p) := by
    rw [partIntegral_last plev _ k hmono hk hub hlen1,
      List.getD_eq_getElem _ _ hk1, List.getElem_zipWith, htk, hpk]
    simp only [odiv]
    rw [if_neg hp0]
  have h2 : partIntegral plev (pf.map (fun x => odiv (some 1) x)) k = some (1 / p) := by
    rw [partIntegral_last plev _ k hmono hk hub hlen2,
      List.getD_eq_getElem _ _ hk2, List.getElem_map, hpk]
    simp only [odiv]
    rw [if_neg hp0]
  refine ⟨h1, h2, ?_⟩
  unfold virtualTempWeighted
  rw [h1, h2]
  simp only [odiv]
  rw [if_neg (one_div_ne_zero hp0)]
  congr 1
  field_simp

theorem C4_bottom_level_degenerate_witness :
    partIntegral [(1:ℚ), 2] (List.zipWith odiv [some 5, some 7] [some 1, some 2]) 1
      = some (7 / 2)
    ∧ partIntegral [(1:ℚ), 2] ([some 1, some 2].map (fun x => odiv (some 1) x)) 1
      = some (1 / 2)
    ∧ virtualTempWeighted [(1:ℚ), 2] [some 5, some 7] [some 1, some 2] 1 = some 7 :=
  C4_bottom_level_degenerate [(1:ℚ), 2] [some 5, some 7] [some 1, some 2] 1 7 2
    (by norm_num [List.pairwise_cons])
    (by norm_num)
    (by norm_num [List.getD])
    (by norm_num)
    (by norm_num)
    rfl
    rfl
    (by norm_num)

theorem weightsWhere_getD_nonneg {M NL NLon : ℕ} (w : Fin NL → ℚ) (lm : F3 M NL NLon)
    (hw : ∀ i, 0 ≤ w i) (m : Fin M) (i : Fin NL) (j : Fin NLon) :
    0 ≤ ((weightsWhere w lm) m i j).getD 0 := by
  unfold weightsWhere
  by_cases h : lm m i j = none
  · simpa [h] using hw i
  · simp [h]

theorem wfrac_range {M NL NLon : ℕ} (flag : Fin M → Fin NL → Fin NLon → Bool)
    (w : Fin NL → ℚ) (lm : F3 M NL NLon) (hw : ∀ i, 0 ≤ w i)
    (hd : wsum (weightsWhere w lm) ≠ 0) :
    ∃ q, odiv (some (wsumWhere flag (weightsWhere w lm)))
        (some (wsum (weightsWhere w lm))) = some q ∧ 0 ≤ q ∧ q ≤ 1 := by
  have hnn : ∀ x : Fin M × Fin NL × Fin NLon,
      0 ≤ ((weightsWhere w lm) x.1 x.2.1 x.2.2).getD 0 :=
    fun x => weightsWhere_getD_nonneg w lm hw x.1 x.2.1 x.2.2
  have hden_nonneg : 0 ≤ wsum (weightsWhere w lm) := by
    unfold wsum
    exact Finset.sum_nonneg (fun x _ => hnn x)
  have hden_pos : 0 < wsum (weightsWhere w lm) :=
    lt_of_le_of_ne hden_nonneg (Ne.symm hd)
  have hnum_nonneg : 0 ≤ wsumWhere flag (weightsWhere w lm) := by
    unfold wsumWhere
    refine Finset.sum_nonneg (fun x _ => ?_)
    by_cases h : flag x.1 x.2.1 x.2.2
    · simpa [h] using hnn x
    · simp [h]
  have hle : wsumWhere flag (weightsWhere w lm) ≤ wsum (weightsWhere w lm) := by
    unfold wsumWhere wsum
    refine Finset.sum_le_sum (fun x _ => ?_)
    by_cases h : flag x.1 x.2.1 x.2.2
    · simp [h]
    · simpa [h] using hnn x
  refine ⟨wsumWhere flag (weightsWhere w lm) / wsum (weightsWhere w lm), ?_,
    div_nonneg hnum_nonneg hden_nonneg, (div_le_one hden_pos).mpr hle⟩
  simp only [odiv]
  rw [if_neg hd]

theorem wfrac_count {M NL NLon : ℕ} (flag : Fin M → Fin NL → Fin NLon → Bool)
    (w : Fin NL → ℚ) (lm : F3 M NL NLon)
    (hw1 : ∀ i, w i = 1) (hlm : ∀ m i j, lm m i j = none) (hpos : 0 < M * NL * NLon) :
    odiv (some (wsumWhere flag (weightsWhere w lm))) (some (wsum (weightsWhere w lm)))
      = some (((Finset.univ.filter
          (fun x : Fin M × Fin NL × Fin NLon => flag x.1 x.2.1 x.2.2 = true)).card : ℚ)
          / ((M * NL * NLon : ℕ) : ℚ)) := by
  have hwm : ∀ (m : Fin M) (i : Fin NL) (j : Fin NLon),
      weightsWhere w lm m i j = some 1 := by
    intro m i j
    unfold weightsWhere
    rw [if_pos (hlm m i j), hw1 i]
  have hcard : ((Fintype.card (Fin M × Fin NL × Fin NLon) : ℕ) : ℚ)
      = ((M * NL * NLon : ℕ) : ℚ) := by
    simp [Fintype.card_prod, Fintype.card_fin]
    ring
  have hden : wsum (weightsWhere w lm) = ((M * NL * NLon : ℕ) : ℚ) := by
    unfold wsum
    have hterm : ∀ x : Fin M × Fin NL × Fin NLon,
        ((weightsWhere w lm) x.1 x.2.1 x.2.2).getD 0 = (1 : ℚ) := by
      intro x
      rw [hwm x.1 x.2.1 x.2.2]
      rfl
    rw [Finset.sum_congr rfl (fun x _ => hterm x), Finset.sum_const, Finset.card_univ,
      nsmul_eq_mul, mul_one, hcard]
  have hnum : wsumWhere flag (weightsWhere w lm)
      = ((Finset.univ.filter
          (fun x : Fin M × Fin NL × Fin NLon => flag x.1 x.2.1 x.2.2 = true)).card : ℚ) := by
    unfold wsumWhere
    have hterm : ∀ x : Fin M × Fin NL × Fin NLon,
        (if flag x.1 x.2.1 x.2.2 then ((weightsWhere w lm) x.1 x.2.1 x.2.2).getD 0 else 0)
          = (if flag x.1 x.2.1 x.2.2 then (1 : ℚ) else 0) := by
      intro x
      rw [hwm x.1 x.2.1 x.2.2]
      rfl
    rw [Finset.sum_congr rfl (fun x _ => hterm x), Finset.sum_boole]
  have hdz : ((M * NL * NLon : ℕ) : ℚ) ≠ 0 := by
    have h0 : M * NL * NLon ≠ 0 := Nat.pos_iff_ne_zero.mp hpos
    exact_mod_cast h0
  rw [hnum, hden]
  simp only [odiv]
  rw [if_neg hdz]

/-- C5: for nonnegative weights and a nonzero weighted denominator both
ascent-fraction estimators return a value in [0, 1]; with all-one
weights and a mask excluding nothing, each returns the plain count of
predicate-satisfying points over the total number of points. -/
theorem C5_ascent_fraction_range {M NL NLon : ℕ} (hsfc hsat500 wap500 : F3 M NL NLon)
    (w : Fin NL → ℚ) (lm : F3 M NL NLon) :
    ((∀ i, 0 ≤ w i) → wsum (weightsWhere w lm) ≠ 0 →
      (∃ q, proportion_overcome_conv_threshold hsfc hsat500 w lm = some q ∧ 0 ≤ q ∧ q ≤ 1)
      ∧ (∃ q, calc_ascent_frac wap500 w lm = some q ∧ 0 ≤ q ∧ q ≤ 1))
    ∧ ((∀ i, w i = 1) → (∀ m i j, lm m i j = none) → 0 < M * NL * NLon →
      proportion_overcome_conv_threshold hsfc hsat500 w lm
        = some (((Finset.univ.filter (fun x : Fin M × Fin NL × Fin NLon =>
            ogt0 (osub (hsfc x.1 x.2.1 x.2.2) (hsat500 x.1 x.2.1 x.2.2)) = true)).card : ℚ)
            / ((M * NL * NLon : ℕ) : ℚ))
      ∧ calc_ascent_frac wap500 w lm
        = some (((Finset.univ.filter (fun x : Fin M × Fin NL × Fin NLon =>
            olt0 (wap500 x.1 x.2.1 x.2.2) = true)).card : ℚ)
            / ((M * NL * NLon : ℕ) : ℚ))) := by
  constructor
  · intro hw hd
    exact ⟨wfrac_range _ w lm hw hd, wfrac_range _ w lm hw hd⟩
  · intro hw1 hlm hpos
    exact ⟨wfrac_count _ w lm hw1 hlm hpos, wfrac_count _ w lm hw1 hlm hpos⟩

theorem C5_ascent_fraction_range_witness :
    ((∃ q, proportion_overcome_conv_threshold (fun _ _ _ => some 2 : F3 1 1 1)
        (fun _ _ _ => some 1) (fun _ => (1:ℚ)) (fun _ _ _ => none) = some q ∧ 0 ≤ q ∧ q ≤ 1)
      ∧ (∃ q, calc_ascent_frac (fun _ _ _ => some (-1) : F3 1 1 1) (fun _ => (1:ℚ))
        (fun _ _ _ => none) = some q ∧ 0 ≤ q ∧ q ≤ 1))
    ∧ (proportion_overcome_conv_threshold (fun _ _ _ => some 2 : F3 1 1 1)
        (fun _ _ _ => some 1) (fun _ => (1:ℚ)) (fun _ _ _ => none)
      = some (((Finset.univ.filter (fun x : Fin 1 × Fin 1 × Fin 1 =>
          ogt0 (osub ((fun _ _ _ => some 2 : F3 1 1 1) x.1 x.2.1 x.2.2)
            ((fun _ _ _ => some 1 : F3 1 1 1) x.1 x.2.1 x.2.2)) = true)).card : ℚ)
          / ((1 * 1 * 1 : ℕ) : ℚ))
      ∧ calc_ascent_frac (fun _ _ _ => some (-1) : F3 1 1 1) (fun _ => (1:ℚ))
        (fun _ _ _ => none)
      = some (((Finset.univ.filter (fun x : Fin 1 × Fin 1 × Fin 1 =>
          olt0 ((fun _ _ _ => some (-1) : F3 1 1 1) x.1 x.2.1 x.2.2) = true)).card : ℚ)
          / ((1 * 1 * 1 : ℕ) : ℚ))) := by
  have h := C5_ascent_fraction_range (fun _ _ _ => some 2 : F3 1 1 1) (fun _ _ _ => some 1)
    (fun _ _ _ => some (-1)) (fun _ => (1:ℚ)) (fun _ _ _ => none)
  exact ⟨h.1 (fun i => by norm_num)
      (by norm_num [wsum, weightsWhere, Fintype.sum_prod_type]),
    h.2 (fun i => rfl) (fun m i j => rfl) (by norm_num)⟩

/-- C6: a point is classified as ascending under the vertical-velocity
criterion iff the 500 hPa vertical velocity is strictly negative, and
under the instability criterion (the argument `func` builds) iff the
residual hsfc − ε̂·adjustment − hsat_ref is strictly positive. -/
theorem C6_ascent_predicates :
    (∀ x : ℚ, olt0 (some x) = true ↔ x < 0)
    ∧ (∀ (M NL NLon : ℕ) (ehat : ℚ) (hsfc adjustment hsat500 : F3 M NL NLon)
        (m : Fin M) (i : Fin NL) (j : Fin NLon) (hv av sv : ℚ),
        hsfc m i j = some hv → adjustment m i j = some av → hsat500 m i j = some sv →
        (ogt0 (osub (funcIndexArg ehat hsfc adjustment m i j) (hsat500 m i j)) = true
          ↔ 0 < hv - ehat * av - sv)) := by
  constructor
  · intro x
    simp [olt0]
  · intro M NL NLon ehat hsfc adjustment hsat500 m i j hv av sv h1 h2 h3
    simp only [funcIndexArg, h1, h2, h3, omul, osub, ogt0, decide_eq_true_eq]
    rw [mul_comm av ehat]

theorem C6_ascent_predicates_witness :
    (olt0 (some (-1 : ℚ)) = true ↔ (-1 : ℚ) < 0)
    ∧ (ogt0 (osub (funcIndexArg (3/20) (fun _ _ _ => some 10 : F3 1 1 1)
        (fun _ _ _ => some 2) 0 0 0) (some 1)) = true
      ↔ 0 < (10 : ℚ) - (3/20) * 2 - 1) :=
  ⟨C6_ascent_predicates.1 (-1),
    C6_ascent_predicates.2 1 1 1 (3/20) (fun _ _ _ => some 10) (fun _ _ _ => some 2)
      (fun _ _ _ => some 1) 0 0 0 10 2 1 rfl rfl rfl⟩

/-- C7 is refuted at a concrete grid: at the single point the aggregated
field (the instability index, here with undefined hsat500) is undefined
while the mask flags nothing, yet the effective weight is the defined
value 1 — not zero or undefined — and it still enters the denominator,
so the fraction evaluates to the defined value 0 instead of excluding
the point from both sums. -/
theorem C7_undefined_field_keeps_weight :
    weightsWhere (fun _ => (1:ℚ)) (fun _ _ _ => none : F3 1 1 1) 0 0 0 = some 1
    ∧ proportion_overcome_conv_threshold (fun _ _ _ => some 1 : F3 1 1 1)
        (fun _ _ _ => none) (fun _ => (1:ℚ)) (fun _ _ _ => none) = some 0 := by
  constructor
  · rfl
  · norm_num [proportion_overcome_conv_threshold, wsum, wsumWhere, weightsWhere, odiv,
      osub, ogt0, Fintype.sum_prod_type]

/-- C7 (amended): the effective weight entering both the numerator and
the denominator is undefined wherever the adjusted land mask flags the
point, and the mask construction flags exactly land points and points
with missing control adjustment; the 1-D by-latitude weight broadcasts
over month and longitude (the masked weight at (m, i, j) is either
missing or the latitude weight `w i`).  An undefined aggregated field
value at an unflagged point is excluded from the numerator only. -/
theorem C7_mask_and_broadcast_amended {M NL NLon : ℕ} (rm : Fin NL → Fin NLon → Option ℚ)
    (adj : F3 M NL NLon) (w : Fin NL → ℚ) (lm : F3 M NL NLon)
    (m : Fin M) (i : Fin NL) (j : Fin NLon) :
    (rm i j ≠ none ∨ adj m i j = none →
      weightsWhere w (landmaskFinal (landmaskStep1 rm adj)) m i j = none)
    ∧ (weightsWhere w lm m i j = none ∨ weightsWhere w lm m i j = some (w i)) := by
  constructor
  · intro hflag
    have h1 : landmaskStep1 rm adj m i j = none := by
      unfold landmaskStep1
      rcases hflag with h | h
      · rw [if_neg]
        intro hcon
        exact h hcon.1
      · rw [if_neg]
        intro hcon
        rw [h] at hcon
        simp at hcon
    have h2 : landmaskFinal (landmaskStep1 rm adj) m i j = some 0 := by
      unfold landmaskFinal
      rw [h1]
      simp
    unfold weightsWhere
    rw [h2]
    simp
  · unfold weightsWhere
    by_cases h : lm m i j = none
    · right
      rw [if_pos h]
    · left
      rw [if_neg h]

theorem C7_mask_and_broadcast_amended_witness :
    weightsWhere (fun _ => (1:ℚ))
      (landmaskFinal (landmaskStep1 (fun _ _ => some 5) (fun _ _ _ => some 1 : F3 1 1 1)))
      0 0 0 = none
    ∧ (weightsWhere (fun _ => (1:ℚ)) (fun _ _ _ => none : F3 1 1 1) 0 0 0 = none
      ∨ weightsWhere (fun _ => (1:ℚ)) (fun _ _ _ => none : F3 1 1 1) 0 0 0
        = some ((fun _ => (1:ℚ)) (0 : Fin 1))) :=
  ⟨(C7_mask_and_broadcast_amended (fun _ _ => some 5) (fun _ _ _ => some 1)
      (fun _ => (1:ℚ)) (fun _ _ _ => none) 0 0 0).1 (Or.inl (by simp)),
    (C7_mask_and_broadcast_amended (fun _ _ => some 5) (fun _ _ _ => some 1)
      (fun _ => (1:ℚ)) (fun _ _ _ => none) 0 0 0).2⟩

/-- C8 is refuted at a concrete degenerate input (the mask excludes the
whole grid, so the weighted denominator is zero): the estimator's
division yields the generic undefined value — exactly the numerically
meaningless 0/0 the claim says is avoided — and the objective `func`
propagates it; no distinguished error condition exists anywhere in the
code. -/
theorem C8_degenerate_returns_nan :
    proportion_overcome_conv_threshold (fun _ _ _ => some 1 : F3 1 1 1)
      (fun _ _ _ => some 0) (fun _ => (1:ℚ)) (fun _ _ _ => some 0) = none
    ∧ func (3/20) (fun _ _ _ => some 1 : F3 1 1 1) (fun _ _ _ => some 1)
        (fun _ _ _ => some 0) (fun _ _ _ => some 1) (fun _ => (1:ℚ))
        (fun _ _ _ => some 0) = none := by
  constructor
  · norm_num [proportion_overcome_conv_threshold, wsum, wsumWhere, weightsWhere, odiv,
      osub, ogt0, Fintype.sum_prod_type, Option.some_ne_none]
  · norm_num [func, calc_ascent_frac, proportion_overcome_conv_threshold, wsum, wsumWhere,
      weightsWhere, odiv, osub, oabs, ogt0, olt0, omul, funcIndexArg, Fintype.sum_prod_type,
      Option.some_ne_none]

/-- C8 (amended): when the weighted denominator is zero (mask excludes
every point) both ascent fractions and the calibration objective
evaluate to the undefined value (the 0/0 float NaN); no explicit error
condition is reported. -/
theorem C8_degenerate_objective_amended {M NL NLon : ℕ} (ehat : ℚ)
    (hsfc adjustment hsat500 wap500 : F3 M NL NLon) (w : Fin NL → ℚ) (lm : F3 M NL NLon)
    (hd : wsum (weightsWhere w lm) = 0) :
    proportion_overcome_conv_threshold hsfc hsat500 w lm = none
    ∧ calc_ascent_frac wap500 w lm = none
    ∧ func ehat hsfc adjustment hsat500 wap500 w lm = none := by
  have h1 : ∀ hsfc2 hsat2 : F3 M NL NLon,
      proportion_overcome_conv_threshold hsfc2 hsat2 w lm = none := by
    intro hsfc2 hsat2
    unfold proportion_overcome_conv_threshold
    rw [hd]
    simp [odiv]
  have h2 : calc_ascent_frac wap500 w lm = none := by
    unfold calc_ascent_frac
    rw [hd]
    simp [odiv]
  refine ⟨h1 hsfc hsat500, h2, ?_⟩
  unfold func
  rw [h1 (funcIndexArg ehat hsfc adjustment) hsat500, h2]
  rfl

theorem C8_degenerate_objective_amended_witness :
    proportion_overcome_conv_threshold (fun _ _ _ => some 1 : F3 1 1 1)
      (fun _ _ _ => some 1) (fun _ => (1:ℚ)) (fun _ _ _ => some 0) = none
    ∧ calc_ascent_frac (fun _ _ _ => some 1 : F3 1 1 1) (fun _ => (1:ℚ))
        (fun _ _ _ => some 0) = none
    ∧ func (3/20) (fun _ _ _ => some 1 : F3 1 1 1) (fun _ _ _ => some 2)
        (fun _ _ _ => some 1) (fun _ _ _ => some 1) (fun _ => (1:ℚ))
        (fun _ _ _ => some 0) = none :=
  C8_degenerate_objective_amended (3/20) (fun _ _ _ => some 1) (fun _ _ _ => some 2)
    (fun _ _ _ => some 1) (fun _ _ _ => some 1) (fun _ => (1:ℚ)) (fun _ _ _ => some 0)
    (by norm_num [wsum, weightsWhere, Fintype.sum_prod_type, Option.some_ne_none])
